import Mathlib

/-!
Verification of the centralized reactive state container of the
business-accountant repository (`StateManager` together with the fixed
initial snapshot `initialState`).

JavaScript runtime values are modelled by the inductive type `JVal`.
Objects and arrays carry an identity tag (`id`) so that the JavaScript
strict-equality operator `===` (reference identity for objects and
arrays, value identity for primitives) can be expressed; the manager
threads a fresh-identity counter (`nextId`) through every allocation
performed by `deepClone` and by nested auto-vivification.

Listener callbacks are modelled by identifiers (`Nat`); invoking a
listener is modelled by emitting an `Event` record, and a behaviour
function `throws : Nat → Bool` says which listeners raise when invoked
(the try/catch in `notifyListeners` turns a raise into a diagnostic log
line).  Wall-clock time is an explicit `now : Nat` argument to `set`.
Strings written to the console (`console.warn` / `console.error`) are
collected in the `logs` component of a step's output.
-/

/-- A JavaScript runtime value.  `arr` and `obj` carry an identity tag
so reference equality (`===`) is expressible.  `Date` values never occur
in the application state and are not modelled. -/
inductive JVal where
  | null
  | undefined
  | bool (b : Bool)
  | num (n : Int)
  | str (s : String)
  | arr (id : Nat) (elems : List JVal)
  | obj (id : Nat) (fields : List (String × JVal))
deriving Repr, Inhabited

/-- JavaScript strict equality `a === b`: value equality on primitives,
identity on arrays and objects. -/
def strictEq : JVal → JVal → Bool
  | .null, .null => true
  | .undefined, .undefined => true
  | .bool a, .bool b => a == b
  | .num a, .num b => a == b
  | .str a, .str b => a == b
  | .arr i _, .arr j _ => i == j
  | .obj i _, .obj j _ => i == j
  | _, _ => false

/-- JavaScript truthiness (`NaN` is not modelled). -/
def truthy : JVal → Bool
  | .null => false
  | .undefined => false
  | .bool b => b
  | .num n => n != 0
  | .str s => s != ""
  | .arr _ _ => true
  | .obj _ _ => true

def isNull : JVal → Bool
  | .null => true
  | _ => false

def isObj : JVal → Bool
  | .obj _ _ => true
  | _ => false

/-- Digit-string value: `some n` when every character of the list is a
decimal digit (accumulating left to right), `none` otherwise. -/
def digitsToNat : List Char → Nat → Option Nat
  | [], acc => some acc
  | c :: cs, acc =>
      if 48 ≤ c.toNat && c.toNat ≤ 57 then
        digitsToNat cs (acc * 10 + (c.toNat - 48))
      else none

/-- A JavaScript array-index key: a non-empty all-digit string (the
behaviour of `String.toNat?`, re-implemented so terms reduce). -/
def jsIndex? (s : String) : Option Nat :=
  match s.data with
  | [] => none
  | cs => digitsToNat cs 0

/-- Property read `v[key]` with a string key: field lookup on objects,
numeric-index lookup on arrays, `undefined` otherwise (this also covers
the optional-chaining read `v?.[key]`, since reads on `null`/`undefined`
yield `undefined` here; string character indexing is not modelled, no
state path addresses into a string). -/
def jGet : JVal → String → JVal
  | .obj _ fs, k => match fs.lookup k with
    | some v => v
    | none => .undefined
  | .arr _ xs, k => match jsIndex? k with
    | some i => xs.getD i .undefined
    | none => .undefined
  | _, _ => .undefined

/-- `fields[k] = v` on an object's field list: overwrite in place if the
key is present, append otherwise (JavaScript property-creation order). -/
def setField : List (String × JVal) → String → JVal → List (String × JVal)
  | [], k, v => [(k, v)]
  | (k', v') :: fs, k, v =>
      if k' = k then (k, v) :: fs else (k', v') :: setField fs k v

/-- Property write `v[key] = x` on an object (identity preserved).  The
state root is always an object, so `StateManager.set` only ever uses the
object case; the catch-all is never reached from the manager. -/
def objSet : JVal → String → JVal → JVal
  | .obj i fs, k, x => .obj i (setField fs k x)
  | v, _, _ => v

mutual

/-- `StateManager.deepClone`: primitives are returned as-is, arrays map
the clone over their elements, objects clone every own field; each new
array/object receives a fresh identity from the counter `n`. -/
def deepClone (n : Nat) : JVal → Nat × JVal
  | .arr _ xs =>
      let p := deepCloneList n xs
      (p.1 + 1, .arr p.1 p.2)
  | .obj _ fs =>
      let p := deepCloneFields n fs
      (p.1 + 1, .obj p.1 p.2)
  | v => (n, v)

def deepCloneList (n : Nat) : List JVal → Nat × List JVal
  | [] => (n, [])
  | x :: xs =>
      let p := deepClone n x
      let q := deepCloneList p.1 xs
      (q.1, p.2 :: q.2)

def deepCloneFields (n : Nat) : List (String × JVal) → Nat × List (String × JVal)
  | [] => (n, [])
  | (k, v) :: fs =>
      let p := deepClone n v
      let q := deepCloneFields p.1 fs
      (q.1, (k, p.2) :: q.2)

end

mutual

/-- `StateManager.deepEqual`: `===` short-circuits to true; a `null` on
either side is unequal; arrays of equal length compare element-wise with
the same rule; every other pair is unequal. -/
def deepEqual (a b : JVal) : Bool :=
  if strictEq a b then true
  else if isNull a || isNull b then false
  else
    match a, b with
    | .arr _ xs, .arr _ ys => xs.length == ys.length && deepEqualList xs ys
    | _, _ => false

def deepEqualList : List JVal → List JVal → Bool
  | [], [] => true
  | x :: xs, y :: ys => deepEqual x y && deepEqualList xs ys
  | _, _ => false

end

mutual

/-- Erase all identity tags (sets every `id` to 0): two values are
`eraseIds`-equal exactly when they are structurally identical. -/
def eraseIds : JVal → JVal
  | .arr _ xs => .arr 0 (eraseIdsList xs)
  | .obj _ fs => .obj 0 (eraseIdsFields fs)
  | v => v

def eraseIdsList : List JVal → List JVal
  | [] => []
  | x :: xs => eraseIds x :: eraseIdsList xs

def eraseIdsFields : List (String × JVal) → List (String × JVal)
  | [] => []
  | (k, v) :: fs => (k, eraseIds v) :: eraseIdsFields fs

end

/-- One entry of the change-history log (`StateManager.history`). -/
structure HistEntry where
  key : String
  oldValue : JVal
  newValue : JVal
  timestamp : Nat
deriving Repr, Inhabited

/-- One listener invocation: listener `listener` called with
`(newValue, oldValue, key)`. -/
structure Event where
  listener : Nat
  newValue : JVal
  oldValue : JVal
  key : String
deriving Repr

/-- The `StateManager`'s private fields.  Listener callbacks are
identifiers; the registry mirrors `Map<string, Set<Listener>>` as an
insertion-ordered association list whose values are insertion-ordered
duplicate-free lists.  `validators` mirrors
`Map<string, StateValidator>`; every validator registered by
`setupValidators` ignores its `key` argument, so a validator is
modelled as a predicate on the candidate value.  `nextId` is the
fresh-identity counter for allocations. -/
structure SM where
  state : JVal
  listeners : List (String × List Nat)
  validators : String → Option (JVal → Bool)
  history : List HistEntry
  nextId : Nat

/-- The output of one mutating operation: the new manager, the listener
invocations performed, and the console diagnostics emitted. -/
structure StepOut where
  sm : SM
  events : List Event
  logs : List String

def validTabs : List String :=
  ["overview", "income", "expenses", "deductions", "taxes", "goals"]

def validTypes : List String :=
  ["income", "expenses", "mileage", "utilities", "tax-payments", "savings-goals"]

/-- `setupValidators`' validator for `'activeTab'`. -/
def activeTabValidator : JVal → Bool
  | .str s => validTabs.contains s
  | _ => false

/-- `setupValidators`' validator for `'currentRecordType'`. -/
def currentRecordTypeValidator : JVal → Bool
  | .null => true
  | .str s => validTypes.contains s
  | _ => false

/-- `setupValidators`' validator for the key `'selectHomeOfficeMethod'`
(the key string as written in the source). -/
def selectHomeOfficeMethodValidator : JVal → Bool
  | .null => true
  | .str s => s == "simplified" || s == "actual"
  | _ => false

/-- `setupValidators`' validator for `'currentRecord'`:
`typeof value === 'number' && value > 0`, or `null`. -/
def currentRecordValidator : JVal → Bool
  | .null => true
  | .num n => 0 < n
  | _ => false

/-- `StateManager.setupValidators`: the fixed validator map installed by
the constructor.  Note the third key is the literal string
`"selectHomeOfficeMethod"` exactly as in the source, which differs from
the `AppState` field name `selectedHomeOfficeMethod`. -/
def setupValidators : String → Option (JVal → Bool) := fun key =>
  if key = "activeTab" then some activeTabValidator
  else if key = "currentRecordType" then some currentRecordTypeValidator
  else if key = "selectHomeOfficeMethod" then some selectHomeOfficeMethodValidator
  else if key = "currentRecord" then some currentRecordValidator
  else none

/-- The fixed initial snapshot (`initialState` of `AppState.ts`).
Identity tags 0–10 are assigned to its objects and arrays. -/
def initialState : JVal :=
  .obj 0 [
    ("activeTab", .str "overview"),
    ("isLoading", .bool false),
    ("currentRecord", .null),
    ("currentRecordType", .null),
    ("selectedHomeOfficeMethod", .null),
    ("formStates", .obj 1 []),
    ("modalStates", .obj 2 []),
    ("notifications", .arr 3 []),
    ("data", .obj 4 [
      ("income", .arr 5 []),
      ("expenses", .arr 6 []),
      ("mileage", .arr 7 []),
      ("utilities", .arr 8 []),
      ("taxPayments", .arr 9 []),
      ("savingsGoals", .arr 10 [])])]

/-- `StateManager.notifyListeners`: look up the listener set for `key`
and invoke each listener with `(newValue, oldValue, key)`; each
invocation is wrapped in try/catch, so a listener for which `throws`
holds contributes a `console.error` line instead of aborting the loop.
Returns (invocations performed, error lines logged). -/
def notifyListeners (reg : List (String × List Nat)) (throws : Nat → Bool)
    (key : String) (newValue oldValue : JVal) : List Event × List String :=
  match reg.lookup key with
  | some ls =>
      (ls.map fun l => { listener := l, newValue := newValue, oldValue := oldValue, key := key },
       (ls.filter throws).map fun _ => "StateManager: Error in listener for " ++ key)
  | none => ([], [])

/-- `StateManager.get`. -/
def SM.get (m : SM) (key : String) : JVal :=
  jGet m.state key

/-- `StateManager.set`: equality short-circuit, then validation, then
commit (update state, push a history entry with deep-cloned old/new and
the timestamp `now`, evict the oldest entry when the log exceeds 100,
notify the listeners registered under `key`). -/
def SM.set (m : SM) (key : String) (value : JVal) (now : Nat)
    (throws : Nat → Bool) : StepOut :=
  let oldValue := jGet m.state key
  if deepEqual oldValue value then
    ⟨m, [], []⟩
  else
    let rejected := match m.validators key with
      | some f => !f value
      | none => false
    if rejected then
      ⟨m, [], ["StateManager: Invalid value for " ++ key]⟩
    else
      let state1 := objSet m.state key value
      let c1 := deepClone m.nextId oldValue
      let c2 := deepClone c1.1 value
      let hist1 := m.history ++
        [{ key := key, oldValue := c1.2, newValue := c2.2, timestamp := now }]
      let hist2 := if hist1.length > 100 then hist1.drop 1 else hist1
      let out := notifyListeners m.listeners throws key value oldValue
      ⟨{ m with state := state1, history := hist2, nextId := c2.1 }, out.1, out.2⟩

/-- Split a character list on a separator, JavaScript
`String.prototype.split` style: the empty input yields one empty
segment, and separators at the ends yield empty segments. -/
def splitChars (sep : Char) : List Char → List (List Char)
  | [] => [[]]
  | c :: cs =>
      match splitChars sep cs with
      | r :: rs => if c = sep then [] :: r :: rs else (c :: r) :: rs
      | [] => [[]]

/-- `path.split('.')`. -/
def jsSplitDot (s : String) : List String :=
  (splitChars '.' s.data).map fun cs => ⟨cs⟩

/-- Dot-path read used by `getNested` and `getNestedFromState`: split on
`'.'` and fold the property read (with optional chaining) over the
segments. -/
def getNestedFrom (v : JVal) (path : String) : JVal :=
  (jsSplitDot path).foldl jGet v

/-- `StateManager.getNested`. -/
def SM.getNested (m : SM) (path : String) : JVal :=
  getNestedFrom m.state path

/-- JavaScript index assignment `arr[idx] = v`: within bounds the
element is replaced; at or past the end the array is extended, any
skipped positions becoming holes, which read back as `undefined` (the
model stores them as `undefined`, observably identical). -/
def arrSet (xs : List JVal) (idx : Nat) (v : JVal) : List JVal :=
  if idx < xs.length then xs.set idx v
  else xs ++ List.replicate (idx - xs.length) JVal.undefined ++ [v]

/-- The walk-and-assign core of `StateManager.setNested`: walk the
intermediate segments, replacing any falsy intermediate with a freshly
allocated empty object (`if (!obj[key]) obj[key] = {}`), then read the
old leaf value and assign the new one.  Object segments assign fields,
and integer-index segments on arrays assign elements (`arrSet`,
including extension past the end), exactly as in the source.  `none`
models the strict-mode `TypeError` raised when a property is created on
a primitive or on `null`/`undefined`, and also covers the segments the
value model cannot represent: a named (non-index) property of an array
(`JVal` arrays carry no property table, mirroring the source's
`deepClone` and `deepEqual`, which both ignore such properties) and the
special `length` property.  Returns (fresh-identity counter, updated
tree, old leaf value). -/
def setNestedGo (n : Nat) : JVal → List String → String → JVal →
    Option (Nat × JVal × JVal)
  | v, [], lastkey, value =>
      match v with
      | .obj i fs => some (n, .obj i (setField fs lastkey value), jGet v lastkey)
      | .arr i xs =>
          match jsIndex? lastkey with
          | some idx => some (n, .arr i (arrSet xs idx value), jGet v lastkey)
          | none => none
      | _ => none
  | v, k :: ks, lastkey, value =>
      let child := jGet v k
      if truthy child then
        match setNestedGo n child ks lastkey value with
        | none => none
        | some (n', child', old) =>
          match v with
          | .obj i fs => some (n', .obj i (setField fs k child'), old)
          | .arr i xs =>
              match jsIndex? k with
              | some idx => some (n', .arr i (arrSet xs idx child'), old)
              | none => none
          | _ => none
      else
        match v with
        | .obj i fs =>
          match setNestedGo (n + 1) (.obj n []) ks lastkey value with
          | none => none
          | some (n', child', old) => some (n', .obj i (setField fs k child'), old)
        | .arr i xs =>
          match jsIndex? k with
          | some idx =>
            match setNestedGo (n + 1) (.obj n []) ks lastkey value with
            | none => none
            | some (n', child', old) => some (n', .arr i (arrSet xs idx child'), old)
          | none => none
        | _ => none

/-- `StateManager.setNested`: split the path, pop the last segment
(return immediately if it is falsy, i.e. the empty string), walk with
auto-vivification, assign the leaf, and notify the listeners registered
under the full path string.  No validator is consulted and no equality
short-circuit is applied.  `none` models a `TypeError` escaping. -/
def SM.setNested (m : SM) (path : String) (value : JVal)
    (throws : Nat → Bool) : Option StepOut :=
  let keys := jsSplitDot path
  match keys.getLast? with
  | none => some ⟨m, [], []⟩
  | some lastkey =>
    if lastkey = "" then some ⟨m, [], []⟩
    else
      match setNestedGo m.nextId m.state keys.dropLast lastkey value with
      | none => none
      | some (n', state', oldValue) =>
        let out := notifyListeners m.listeners throws path value oldValue
        some ⟨{ m with state := state', nextId := n' }, out.1, out.2⟩

/-- `Set.add` on a listener set: a no-op when the listener is already
present, append otherwise (insertion order). -/
def setAdd (s : List Nat) (l : Nat) : List Nat :=
  if s.contains l then s else s ++ [l]

/-- Replace the value stored under `key` in the registry (JavaScript
`Map` keys are unique, so at most one entry is affected). -/
def mapAdjust (reg : List (String × List Nat)) (key : String)
    (f : List Nat → List Nat) : List (String × List Nat) :=
  reg.map fun kv => if kv.1 = key then (kv.1, f kv.2) else kv

/-- `StateManager.subscribe`: create the key's set if absent (appended
in insertion order), then add the listener to it.  The returned
unsubscribe closure is modelled by `SM.unsubscribe` below. -/
def SM.subscribe (m : SM) (key : String) (listener : Nat) : SM :=
  let reg := if (m.listeners.lookup key).isSome then m.listeners
             else m.listeners ++ [(key, [])]
  { m with listeners := mapAdjust reg key (fun s => setAdd s listener) }

/-- The closure returned by `StateManager.subscribe`: delete this
listener from the key's set, and delete the key's entry entirely when
the set becomes empty. -/
def SM.unsubscribe (m : SM) (key : String) (listener : Nat) : SM :=
  match m.listeners.lookup key with
  | none => m
  | some ls =>
    let ls' := ls.erase listener
    if ls'.isEmpty then
      { m with listeners := m.listeners.filter fun kv => kv.1 != key }
    else
      { m with listeners := mapAdjust m.listeners key (fun s => s.erase listener) }

/-- `StateManager.reset`: deep-clone the current state as `oldState`,
replace the state with a fresh deep clone of the original initial
snapshot, then for every registry entry notify that key's listeners
with the new value read from the fresh state and the old value read
from `oldState`. -/
def SM.reset (m : SM) (throws : Nat → Bool) : StepOut :=
  let c1 := deepClone m.nextId m.state
  let c2 := deepClone c1.1 initialState
  let outs := m.listeners.map fun kv =>
    notifyListeners m.listeners throws kv.1
      (getNestedFrom c2.2 kv.1) (getNestedFrom c1.2 kv.1)
  ⟨{ m with state := c2.2, nextId := c2.1 },
   (outs.map Prod.fst).flatten, (outs.map Prod.snd).flatten⟩

/-- `StateManager.getHistory` (the source returns a fresh array copy;
in the functional model the copy is the list itself). -/
def SM.getHistory (m : SM) : List HistEntry :=
  m.history

/-- `StateManager.clearHistory`. -/
def SM.clearHistory (m : SM) : SM :=
  { m with history := [] }

/-- The constructor `new StateManager(init)`: deep-clone the initial
snapshot and install the fixed validators; `n` seeds the fresh-identity
counter. -/
def mkStateManager (init : JVal) (n : Nat) : SM :=
  { state := (deepClone n init).2
    listeners := []
    validators := setupValidators
    history := []
    nextId := (deepClone n init).1 }

/-- The module-level singleton `new StateManager(initialState)`. -/
def stateManager : SM :=
  mkStateManager initialState 100

/-- Does `set key value` take the commit path on `m` (value differs
under `deepEqual` and no registered validator rejects it)? -/
def SM.commits (m : SM) (key : String) (value : JVal) : Bool :=
  !deepEqual (jGet m.state key) value &&
    (match m.validators key with
     | some f => f value
     | none => true)

/-- Run a sequence of `set` calls, each given as (key, value, time);
listener behaviour is irrelevant to the resulting manager. -/
def runSets (m : SM) (ops : List (String × JVal × Nat)) : SM :=
  ops.foldl (fun acc op => (acc.set op.1 op.2.1 op.2.2 (fun _ => false)).sm) m

/-- Every `set` call of the sequence takes the commit path. -/
def allCommit : SM → List (String × JVal × Nat) → Bool
  | _, [] => true
  | m, op :: ops =>
      m.commits op.1 op.2.1 &&
        allCommit (m.set op.1 op.2.1 op.2.2 (fun _ => false)).sm ops

/-- Well-formedness of the listener registry, guaranteed by the
`Map`/`Set` semantics of JavaScript: registry keys are distinct and
each listener set is duplicate-free. -/
def regWF (reg : List (String × List Nat)) : Prop :=
  (reg.map Prod.fst).Nodup ∧ ∀ kv ∈ reg, List.Nodup kv.2

mutual

/-- The equality relation exactly as the spec words it: two values are
equal iff they are reference-identical (`===`), or both are arrays of
the same length whose elements are pairwise equal under the same rule;
any other pair is unequal. -/
def specEqual (a b : JVal) : Bool :=
  strictEq a b ||
    match a, b with
    | .arr _ xs, .arr _ ys => xs.length == ys.length && specEqualList xs ys
    | _, _ => false

def specEqualList : List JVal → List JVal → Bool
  | [], [] => true
  | x :: xs, y :: ys => specEqual x y && specEqualList xs ys
  | _, _ => false

end

/-- The concrete run for the C6 witness: 150 successive distinct
positive values written to `currentRecord` at times 0–149. -/
def opsWitness : List (String × JVal × Nat) :=
  (List.range 150).map fun i => ("currentRecord", JVal.num (Int.ofNat i + 1), i)

instance (reg : List (String × List Nat)) : Decidable (regWF reg) :=
  decidable_of_iff ((reg.map Prod.fst).Nodup ∧ ∀ kv ∈ reg, List.Nodup kv.2) Iff.rfl

/-- A registry fixture for the C9 witness: two listeners (7 and 8)
subscribed under `'activeTab'`. -/
def demoM : SM := (stateManager.subscribe "activeTab" 7).subscribe "activeTab" 8

/-- A fixture for the C8 witness: listener 7 subscribed under
`'activeTab'` on the singleton manager. -/
def demoM8 : SM := stateManager.subscribe "activeTab" 7

/-! ## Basic lemmas about the value model -/

theorem strictEq_refl (a : JVal) : strictEq a a = true := by
  cases a <;> simp [strictEq]

theorem deepEqual_refl (a : JVal) : deepEqual a a = true := by
  cases a <;> simp [deepEqual, strictEq]

theorem lookup_setField_self (fs : List (String × JVal)) (k : String) (v : JVal) :
    (setField fs k v).lookup k = some v := by
  induction fs with
  | nil => simp [setField, List.lookup]
  | cons hd tl ih =>
      obtain ⟨k', v'⟩ := hd
      by_cases h : k' = k
      · subst h
        simp [setField, List.lookup]
      · simp only [setField, if_neg h, List.lookup]
        have : (k == k') = false := by
          simp [beq_eq_false_iff_ne]
          exact fun hk => h hk.symm
        rw [this]
        exact ih

theorem jGet_objSet_self (s : JVal) (k : String) (v : JVal)
    (h : isObj s = true) : jGet (objSet s k v) k = v := by
  cases s <;> simp_all [isObj, objSet, jGet, lookup_setField_self]

/-! ## Shape lemmas for `SM.set` -/

theorem set_noop_of_deepEqual (m : SM) (k : String) (v : JVal) (now : Nat)
    (t : Nat → Bool) (h : deepEqual (jGet m.state k) v = true) :
    m.set k v now t = ⟨m, [], []⟩ := by
  simp [SM.set, h]

theorem set_reject_eq (m : SM) (k : String) (v : JVal) (now : Nat)
    (t : Nat → Bool) (f : JVal → Bool) (hval : m.validators k = some f)
    (hne : deepEqual (jGet m.state k) v = false) (hrej : f v = false) :
    m.set k v now t = ⟨m, [], ["StateManager: Invalid value for " ++ k]⟩ := by
  simp [SM.set, hne, hval, hrej]

theorem set_commit_state (m : SM) (k : String) (v : JVal) (now : Nat)
    (t : Nat → Bool)
    (hne : deepEqual (jGet m.state k) v = false)
    (hacc : (match m.validators k with | some f => !f v | none => false) = false) :
    (m.set k v now t).sm.state = objSet m.state k v := by
  simp [SM.set, hne, hacc]

theorem set_commit_events (m : SM) (k : String) (v : JVal) (now : Nat)
    (t : Nat → Bool)
    (hne : deepEqual (jGet m.state k) v = false)
    (hacc : (match m.validators k with | some f => !f v | none => false) = false) :
    (m.set k v now t).events = (notifyListeners m.listeners t k v (jGet m.state k)).1 := by
  simp [SM.set, hne, hacc]

/-! ## C1: validation gate of `set` -/

/-- C1.  For every top-level key with a registered validator and every
candidate value not deep-equal to the current value: if the validator
rejects, `set` is a silent no-op — the manager (state, history) is
returned unchanged and no listener is notified (no exception exists,
`set` is total); if the validator accepts, the write commits and `get`
afterwards returns the new value. -/
theorem set_validation_gate (m : SM) (key : String) (value : JVal)
    (now : Nat) (t : Nat → Bool) (f : JVal → Bool)
    (hval : m.validators key = some f)
    (hne : deepEqual (jGet m.state key) value = false) :
    (f value = false →
      (m.set key value now t).sm = m ∧ (m.set key value now t).events = []) ∧
    (f value = true → isObj m.state = true →
      (m.set key value now t).sm.get key = value) := by
  constructor
  · intro hrej
    rw [set_reject_eq m key value now t f hval hne hrej]
    exact ⟨rfl, rfl⟩
  · intro hacc hobj
    have hacc' : (match m.validators key with
        | some g => !g value
        | none => false) = false := by
      rw [hval]
      simp [hacc]
    have hst := set_commit_state m key value now t hne hacc'
    show jGet (m.set key value now t).sm.state key = value
    rw [hst]
    exact jGet_objSet_self m.state key value hobj

/-- Witness for C1 at the concrete singleton manager: switching the
active tab to `'income'` (validator accepts, value differs). -/
theorem set_validation_gate_witness :
    stateManager.validators "activeTab" = some activeTabValidator ∧
    deepEqual (jGet stateManager.state "activeTab") (JVal.str "income") = false ∧
    ((activeTabValidator (JVal.str "income") = false →
        (stateManager.set "activeTab" (JVal.str "income") 0 (fun _ => false)).sm = stateManager ∧
        (stateManager.set "activeTab" (JVal.str "income") 0 (fun _ => false)).events = []) ∧
     (activeTabValidator (JVal.str "income") = true → isObj stateManager.state = true →
        (stateManager.set "activeTab" (JVal.str "income") 0 (fun _ => false)).sm.get "activeTab" =
          JVal.str "income")) :=
  ⟨rfl, by decide,
   set_validation_gate stateManager "activeTab" (JVal.str "income") 0
     (fun _ => false) activeTabValidator rfl (by decide)⟩

/-! ## C2: the home-office validator is registered under a misspelled key -/

/-- C2 (code bug evidence).  `setupValidators` registers the
home-office validator under the key `'selectHomeOfficeMethod'`, which
is not the `AppState` key `selectedHomeOfficeMethod`; consequently no
validator guards the real key, and `set('selectedHomeOfficeMethod',
'not-a-method')` commits: the invalid value is stored and a history
entry is appended, contradicting the claim. -/
theorem selectedHomeOfficeMethod_unvalidated :
    stateManager.validators "selectedHomeOfficeMethod" = none ∧
    strictEq
      (jGet (stateManager.set "selectedHomeOfficeMethod" (JVal.str "not-a-method")
          0 (fun _ => false)).sm.state "selectedHomeOfficeMethod")
      (JVal.str "not-a-method") = true ∧
    (stateManager.set "selectedHomeOfficeMethod" (JVal.str "not-a-method")
      0 (fun _ => false)).sm.history.length = 1 := by
  refine ⟨rfl, by decide, by decide⟩

/-! ## C4: idempotence of `set` on unchanged values -/

theorem deepEqual_of_strictEq (a b : JVal) (h : strictEq a b = true) :
    deepEqual a b = true := by
  rw [deepEqual.eq_def, h]
  rfl

/-- C4.  `set(k, get(k))` is a complete no-op (the manager is returned
unchanged, with no events and no logs — so no validator diagnostics, no
history entry, no notification); more generally `set(k, v)` is a no-op
whenever `deepEqual` holds of the stored value and `v`, i.e. whenever
they are reference-identical (`strictEq`, third conjunct) or equal
under the recursive array-equality rule; and no validator is run: the
no-op holds verbatim under any replacement of the validator registry
(fourth conjunct). -/
theorem set_unchanged_noop :
    (∀ (m : SM) (k : String) (now : Nat) (t : Nat → Bool),
        m.set k (m.get k) now t = ⟨m, [], []⟩) ∧
    (∀ (m : SM) (k : String) (v : JVal) (now : Nat) (t : Nat → Bool),
        deepEqual (m.get k) v = true → m.set k v now t = ⟨m, [], []⟩) ∧
    (∀ (m : SM) (k : String) (v : JVal) (now : Nat) (t : Nat → Bool),
        strictEq (m.get k) v = true → m.set k v now t = ⟨m, [], []⟩) ∧
    (∀ (m : SM) (k : String) (now : Nat) (t : Nat → Bool)
        (vals : String → Option (JVal → Bool)),
        SM.set { m with validators := vals } k (m.get k) now t =
          ⟨{ m with validators := vals }, [], []⟩) := by
  have h2 : ∀ (m : SM) (k : String) (v : JVal) (now : Nat) (t : Nat → Bool),
      deepEqual (m.get k) v = true → m.set k v now t = ⟨m, [], []⟩ := by
    intro m k v now t h
    exact set_noop_of_deepEqual m k v now t h
  have h1 : ∀ (m : SM) (k : String) (now : Nat) (t : Nat → Bool),
      m.set k (m.get k) now t = ⟨m, [], []⟩ :=
    fun m k now t => h2 m k (m.get k) now t (deepEqual_refl _)
  refine ⟨h1, h2, ?_, ?_⟩
  · intro m k v now t h
    exact h2 m k v now t (deepEqual_of_strictEq _ _ h)
  · intro m k now t vals
    exact h1 { m with validators := vals } k now t

/-- Witness for C4: re-setting `currentRecord` to its current value
(`null`) on the singleton manager changes nothing. -/
theorem set_unchanged_noop_witness :
    deepEqual (stateManager.get "currentRecord") JVal.null = true ∧
    stateManager.set "currentRecord" JVal.null 0 (fun _ => false) = ⟨stateManager, [], []⟩ :=
  ⟨by decide,
   set_unchanged_noop.2.1 stateManager "currentRecord" JVal.null 0 (fun _ => false) (by decide)⟩

/-! ## C7: listener failure isolation -/

theorem notify_events_eq (reg : List (String × List Nat)) (t : Nat → Bool)
    (k : String) (nv ov : JVal) :
    (notifyListeners reg t k nv ov).1 =
      ((reg.lookup k).getD []).map
        (fun l => { listener := l, newValue := nv, oldValue := ov, key := k }) := by
  cases h : reg.lookup k <;> simp [notifyListeners, h]

theorem notify_events_indep (reg : List (String × List Nat)) (t t' : Nat → Bool)
    (k : String) (nv ov : JVal) :
    (notifyListeners reg t k nv ov).1 = (notifyListeners reg t' k nv ov).1 := by
  rw [notify_events_eq, notify_events_eq]

/-- C7.  Listener failures are isolated: during any notification, every
listener registered for the key is invoked with the correct
`(newValue, oldValue, key)` arguments regardless of which listeners
throw (the throw only adds a caught-and-logged diagnostic), and the
resulting manager state and the full set of invocations of `set`,
`setNested` and `reset` are independent of the throw behaviour — in
particular no exception reaches the caller, all three operations being
total on every throw behaviour. -/
theorem listener_isolation (m : SM) (p : String) (v : JVal) (now : Nat)
    (t t' : Nat → Bool) :
    (∀ (reg : List (String × List Nat)) (k : String) (nv ov : JVal),
      (notifyListeners reg t k nv ov).1 =
        ((reg.lookup k).getD []).map
          (fun l => { listener := l, newValue := nv, oldValue := ov, key := k })) ∧
    ((m.set p v now t).sm = (m.set p v now t').sm ∧
     (m.set p v now t).events = (m.set p v now t').events) ∧
    ((m.setNested p v t).map (fun o => o.sm) = (m.setNested p v t').map (fun o => o.sm) ∧
     (m.setNested p v t).map (fun o => o.events) = (m.setNested p v t').map (fun o => o.events)) ∧
    ((m.reset t).sm = (m.reset t').sm ∧
     (m.reset t).events = (m.reset t').events) := by
  refine ⟨fun reg k nv ov => notify_events_eq reg t k nv ov, ⟨?_, ?_⟩, ⟨?_, ?_⟩, rfl, ?_⟩
  · simp only [SM.set]
    split
    · rfl
    · split
      · rfl
      · rfl
  · simp only [SM.set]
    split
    · rfl
    · split
      · rfl
      · exact notify_events_indep m.listeners t t' p v (jGet m.state p)
  · simp only [SM.setNested]
    split
    · rfl
    · split
      · rfl
      · split
        · rfl
        · rfl
  · simp only [SM.setNested]
    split
    · rfl
    · split
      · rfl
      · split
        · rfl
        · rename_i n' st ov heq
          exact congrArg some (notify_events_indep m.listeners t t' p v ov)
  · simp only [SM.reset]
    rw [List.map_map, List.map_map]
    apply congrArg List.flatten
    apply List.map_congr_left
    intro kv _
    exact notify_events_indep m.listeners t t' kv.1 _ _

/-! ## C5: characterization of the short-circuit equality -/

mutual

theorem deepEqual_eq_specEqual (a b : JVal) : deepEqual a b = specEqual a b := by
  rw [deepEqual.eq_def, specEqual.eq_def]
  cases h : strictEq a b
  · cases a <;> cases b <;>
      simp_all [isNull, deepEqualList_eq_specEqualList]
  · simp

theorem deepEqualList_eq_specEqualList (xs ys : List JVal) :
    deepEqualList xs ys = specEqualList xs ys := by
  match xs, ys with
  | [], [] => rfl
  | x :: xs', y :: ys' =>
      rw [deepEqualList, specEqualList,
        deepEqual_eq_specEqual x y, deepEqualList_eq_specEqualList xs' ys']
  | [], _ :: _ => rfl
  | _ :: _, [] => rfl

end

/-- C5.  The equality used by `set`'s short-circuit is exactly the
spec's relation: reference identity, or same-length arrays pairwise
equal under the same rule (`specEqual`); in particular two distinct
plain objects with identical contents are unequal, so a `set` with a
freshly built structurally identical object is not short-circuited,
while reference-identical or element-wise-equal-array values are (the
latter facts are the `deepEqual`-driven branches proved in the
idempotence and gate theorems). -/
theorem deepEqual_characterization :
    (∀ a b, deepEqual a b = specEqual a b) ∧
    (∀ (i j : Nat) (fs : List (String × JVal)), i ≠ j →
        deepEqual (JVal.obj i fs) (JVal.obj j fs) = false) := by
  refine ⟨deepEqual_eq_specEqual, ?_⟩
  intro i j fs h
  have h1 : strictEq (JVal.obj i fs) (JVal.obj j fs) = false := by
    simp [strictEq, h]
  rw [deepEqual.eq_def, h1]
  rfl

/-- Witness for C5: two distinct objects with identical contents are
not `deepEqual`. -/
theorem deepEqual_characterization_witness :
    (1 : Nat) ≠ 2 ∧
    deepEqual (JVal.obj 1 [("a", JVal.num 1)]) (JVal.obj 2 [("a", JVal.num 1)]) = false :=
  ⟨by decide, deepEqual_characterization.2 1 2 [("a", JVal.num 1)] (by decide)⟩

/-! ## C6: the history log is capped at 100 entries -/

theorem drop_append_left {α : Type} (L r : List α) (d : Nat) (h : d ≤ L.length) :
    (L ++ r).drop d = L.drop d ++ r := by
  induction L generalizing d with
  | nil =>
      have : d = 0 := by simpa using h
      simp [this]
  | cons x xs ih =>
      cases d with
      | zero => simp
      | succ d' =>
          simp only [List.cons_append, List.drop_succ_cons]
          exact ih d' (by simpa using h)

theorem drop_drop_add {α : Type} (l : List α) (a b : Nat) :
    (l.drop a).drop b = l.drop (a + b) := by
  induction l generalizing a with
  | nil => simp
  | cons x xs ih =>
      cases a with
      | zero => simp
      | succ a' =>
          simp only [List.drop_succ_cons, Nat.succ_add]
          exact ih a'

theorem set_commit_history (m : SM) (k : String) (v : JVal) (now : Nat)
    (t : Nat → Bool)
    (hne : deepEqual (jGet m.state k) v = false)
    (hacc : (match m.validators k with | some f => !f v | none => false) = false)
    (h100 : m.history.length ≤ 100) :
    ∃ e : HistEntry, e.key = k ∧ e.timestamp = now ∧
      (m.set k v now t).sm.history =
        (m.history ++ [e]).drop (m.history.length + 1 - 100) := by
  refine ⟨{ key := k,
            oldValue := (deepClone m.nextId (jGet m.state k)).2,
            newValue := (deepClone (deepClone m.nextId (jGet m.state k)).1 v).2,
            timestamp := now }, rfl, rfl, ?_⟩
  simp only [SM.set, hne, hacc, Bool.false_eq_true, if_false]
  simp only [List.length_append, List.length_cons, List.length_nil, Nat.zero_add]
  by_cases hc : m.history.length + 1 > 100
  · rw [if_pos hc]
    have h1 : m.history.length + 1 - 100 = 1 := by omega
    rw [h1]
  · rw [if_neg hc]
    have h0 : m.history.length + 1 - 100 = 0 := by omega
    rw [h0, List.drop_zero]

theorem set_history_le (m : SM) (k : String) (v : JVal) (now : Nat)
    (t : Nat → Bool) (h100 : m.history.length ≤ 100) :
    (m.set k v now t).sm.history.length ≤ 100 := by
  by_cases h1 : deepEqual (jGet m.state k) v = true
  · rw [set_noop_of_deepEqual m k v now t h1]
    exact h100
  · have hne : deepEqual (jGet m.state k) v = false := by
      simpa using h1
    cases hacc : (match m.validators k with | some f => !f v | none => false) with
    | false =>
        obtain ⟨e, _, _, hh⟩ := set_commit_history m k v now t hne hacc h100
        rw [hh]
        simp only [List.length_drop, List.length_append, List.length_cons,
          List.length_nil, Nat.zero_add]
        omega
    | true =>
        cases hv : m.validators k with
        | none => rw [hv] at hacc; simp at hacc
        | some f =>
            rw [hv] at hacc
            have hf : f v = false := by simpa using hacc
            rw [set_reject_eq m k v now t f hv hne hf]
            exact h100

theorem commits_parts (m : SM) (k : String) (v : JVal)
    (h : m.commits k v = true) :
    deepEqual (jGet m.state k) v = false ∧
      (match m.validators k with | some f => !f v | none => false) = false := by
  unfold SM.commits at h
  cases hd : deepEqual (jGet m.state k) v with
  | true => rw [hd] at h; simp at h
  | false =>
      rw [hd] at h
      refine ⟨rfl, ?_⟩
      cases hv : m.validators k with
      | none => simp
      | some f =>
          rw [hv] at h
          simp only [Bool.not_false, Bool.true_and] at h
          simp [h]

theorem runSets_history (ops : List (String × JVal × Nat)) :
    ∀ m : SM, m.history.length ≤ 100 → allCommit m ops = true →
      ∃ es : List HistEntry, es.length = ops.length ∧
        (runSets m ops).history =
          (m.history ++ es).drop (m.history.length + es.length - 100) ∧
        ∀ i, i < ops.length →
          (es.getD i default).key = (ops.getD i default).1 ∧
          (es.getD i default).timestamp = (ops.getD i default).2.2 := by
  induction ops with
  | nil =>
      intro m h100 _
      refine ⟨[], rfl, ?_, ?_⟩
      · simp only [runSets, List.foldl_nil, List.append_nil, List.length_nil]
        have h0 : m.history.length + 0 - 100 = 0 := by omega
        rw [h0, List.drop_zero]
      · intro i hi
        simp at hi
  | cons op ops ih =>
      intro m h100 hall
      have hall' : m.commits op.1 op.2.1 = true ∧
          allCommit (m.set op.1 op.2.1 op.2.2 (fun _ => false)).sm ops = true := by
        have : allCommit m (op :: ops) =
            (m.commits op.1 op.2.1 &&
              allCommit (m.set op.1 op.2.1 op.2.2 (fun _ => false)).sm ops) := rfl
        rw [this] at hall
        exact And.intro (Bool.and_elim_left hall) (Bool.and_elim_right hall)
      obtain ⟨hne, hacc⟩ := commits_parts m op.1 op.2.1 hall'.1
      obtain ⟨e, hek, het, hh⟩ :=
        set_commit_history m op.1 op.2.1 op.2.2 (fun _ => false) hne hacc h100
      have h100' : (m.set op.1 op.2.1 op.2.2 (fun _ => false)).sm.history.length ≤ 100 :=
        set_history_le m op.1 op.2.1 op.2.2 (fun _ => false) h100
      obtain ⟨es, hlen, hdrop, hidx⟩ :=
        ih (m.set op.1 op.2.1 op.2.2 (fun _ => false)).sm h100' hall'.2
      refine ⟨e :: es, by simp [hlen], ?_, ?_⟩
      · have hrun : runSets m (op :: ops) =
            runSets (m.set op.1 op.2.1 op.2.2 (fun _ => false)).sm ops := rfl
        rw [hrun, hdrop, hh]
        have hd_le : m.history.length + 1 - 100 ≤ (m.history ++ [e]).length := by
          simp
          omega
        rw [← drop_append_left (m.history ++ [e]) es
              (m.history.length + 1 - 100) hd_le, drop_drop_add]
        have hl1 : ((m.history ++ [e]).drop (m.history.length + 1 - 100)).length =
            (m.history ++ [e]).length - (m.history.length + 1 - 100) := by
          simp [List.length_drop]
        have hl2 : (m.history ++ [e]).length = m.history.length + 1 := by simp
        have harith :
            m.history.length + 1 - 100 +
              (((m.history ++ [e]).drop (m.history.length + 1 - 100)).length +
                es.length - 100) =
            m.history.length + (e :: es).length - 100 := by
          rw [hl1, hl2]
          simp only [List.length_cons]
          omega
        rw [harith]
        have hassoc : m.history ++ [e] ++ es = m.history ++ e :: es := by
          simp
        rw [hassoc]
      · intro i hi
        cases i with
        | zero =>
            constructor
            · simpa using hek
            · simpa using het
        | succ i' =>
            have hi' : i' < ops.length := by simpa using hi
            have := hidx i' hi'
            simpa using this

/-- C6.  The history log never exceeds 100 entries: every `set` call
preserves the bound, and a run of 150 committing `set` calls starting
from an empty log leaves exactly 100 entries — the entries of the most
recent 100 calls, in commit order (each entry carrying its call's key
and timestamp, with the 50 oldest evicted). -/
theorem history_capped :
    (∀ (m : SM) (k : String) (v : JVal) (now : Nat) (t : Nat → Bool),
        m.history.length ≤ 100 → (m.set k v now t).sm.history.length ≤ 100) ∧
    (∀ (m : SM) (ops : List (String × JVal × Nat)),
        m.history = [] → ops.length = 150 → allCommit m ops = true →
        ∃ es : List HistEntry, es.length = 150 ∧
          (runSets m ops).history = es.drop 50 ∧
          (runSets m ops).history.length = 100 ∧
          ∀ i, i < 150 →
            (es.getD i default).key = (ops.getD i default).1 ∧
            (es.getD i default).timestamp = (ops.getD i default).2.2) := by
  refine ⟨set_history_le, ?_⟩
  intro m ops hemp hlen hall
  have h100 : m.history.length ≤ 100 := by rw [hemp]; simp
  obtain ⟨es, hl, hdrop, hidx⟩ := runSets_history ops m h100 hall
  have hl150 : es.length = 150 := by rw [hl, hlen]
  refine ⟨es, hl150, ?_, ?_, ?_⟩
  · rw [hdrop, hemp, hl150]
    simp
  · rw [hdrop, hemp, hl150]
    simp
    omega
  · intro i hi
    exact hidx i (by omega)

set_option maxRecDepth 100000 in
/-- Witness for C6: the 150-call run on the singleton manager. -/
theorem history_capped_witness :
    stateManager.history = [] ∧
    opsWitness.length = 150 ∧
    allCommit stateManager opsWitness = true ∧
    (∃ es : List HistEntry, es.length = 150 ∧
      (runSets stateManager opsWitness).history = es.drop 50 ∧
      (runSets stateManager opsWitness).history.length = 100 ∧
      ∀ i, i < 150 →
        (es.getD i default).key = (opsWitness.getD i default).1 ∧
        (es.getD i default).timestamp = (opsWitness.getD i default).2.2) :=
  ⟨rfl, by decide, by decide,
   history_capped.2 stateManager opsWitness rfl (by decide) (by decide)⟩

/-! ## C3: `setNested` auto-vivification -/

/-- Array paths are first-class in the embedding: `setNested` on the
singleton manager vivifies an object inside the empty `notifications`
array (`notifications.0.message`) and assigns an array leaf by index
(`data.income.0`), each read back by `getNested`, exactly as the
source does. -/
theorem setNested_array_index_paths :
    ((stateManager.setNested "notifications.0.message" (JVal.str "hi")
        (fun _ => false)).map
      (fun o => getNestedFrom o.sm.state "notifications.0.message") =
        some (JVal.str "hi")) ∧
    ((stateManager.setNested "data.income.0" (JVal.num 7) (fun _ => false)).map
      (fun o => getNestedFrom o.sm.state "data.income.0") = some (JVal.num 7)) :=
  ⟨by rfl, by rfl⟩

/-! ## Registry lemmas (C9, C10) -/

theorem lookup_mem {β : Type} (reg : List (String × β)) (key : String) (ls : β)
    (h : reg.lookup key = some ls) : (key, ls) ∈ reg := by
  induction reg with
  | nil => cases h
  | cons kv reg ih =>
      obtain ⟨k', v'⟩ := kv
      by_cases hk : key = k'
      · subst hk
        simp only [List.lookup, beq_self_eq_true, Option.some_inj] at h
        simp [h]
      · simp only [List.lookup, beq_eq_false_iff_ne.mpr hk] at h
        exact List.mem_cons_of_mem _ (ih h)

theorem lookup_of_mem_nodupKeys {β : Type} (reg : List (String × β))
    (k : String) (v : β) (hnd : (reg.map Prod.fst).Nodup)
    (hmem : (k, v) ∈ reg) : reg.lookup k = some v := by
  induction reg with
  | nil => cases hmem
  | cons kv reg ih =>
      simp only [List.map_cons, List.nodup_cons] at hnd
      rcases List.mem_cons.mp hmem with h1 | h2
      · rw [← h1]
        simp [List.lookup]
      · have hk : k ≠ kv.1 := by
          intro he
          exact hnd.1 (he ▸ List.mem_map_of_mem Prod.fst h2)
        obtain ⟨k', v'⟩ := kv
        simp only [List.lookup, beq_eq_false_iff_ne.mpr hk] at *
        exact ih hnd.2 h2

theorem lookup_filter_ne_self {β : Type} (reg : List (String × β)) (key : String) :
    (reg.filter (fun kv => kv.1 != key)).lookup key = none := by
  induction reg with
  | nil => rfl
  | cons kv reg ih =>
      by_cases h : kv.1 = key
      · simp only [List.filter, h, bne_self_eq_false]
        exact ih
      · simp only [List.filter, bne_iff_ne.mpr h]
        simp only [List.lookup, beq_eq_false_iff_ne.mpr (Ne.symm h)]
        exact ih

theorem lookup_filter_other {β : Type} (reg : List (String × β))
    (key k' : String) (h : k' ≠ key) :
    (reg.filter (fun kv => kv.1 != key)).lookup k' = reg.lookup k' := by
  induction reg with
  | nil => rfl
  | cons kv reg ih =>
      by_cases hk : kv.1 = key
      · simp only [List.filter, hk, bne_self_eq_false]
        rw [ih]
        simp only [List.lookup, beq_eq_false_iff_ne.mpr (hk ▸ h)]
      · simp only [List.filter, bne_iff_ne.mpr hk]
        simp only [List.lookup]
        cases hbeq : k' == kv.1
        · exact ih
        · rfl

theorem lookup_mapAdjust_self (reg : List (String × List Nat))
    (key : String) (f : List Nat → List Nat) :
    (mapAdjust reg key f).lookup key = (reg.lookup key).map f := by
  induction reg with
  | nil => rfl
  | cons kv reg ih =>
      by_cases h : kv.1 = key
      · simp only [mapAdjust, List.map_cons, if_pos h]
        simp only [List.lookup, beq_eq_false_iff_ne, h, beq_self_eq_true]
        rfl
      · simp only [mapAdjust, List.map_cons, if_neg h]
        simp only [List.lookup, beq_eq_false_iff_ne.mpr (Ne.symm h)]
        exact ih

theorem lookup_mapAdjust_other (reg : List (String × List Nat))
    (key k' : String) (f : List Nat → List Nat) (h : k' ≠ key) :
    (mapAdjust reg key f).lookup k' = reg.lookup k' := by
  induction reg with
  | nil => rfl
  | cons kv reg ih =>
      by_cases hk : kv.1 = key
      · simp only [mapAdjust, List.map_cons, if_pos hk]
        simp only [List.lookup, beq_eq_false_iff_ne.mpr (hk ▸ h)]
        exact ih
      · simp only [mapAdjust, List.map_cons, if_neg hk]
        simp only [List.lookup]
        cases hbeq : k' == kv.1
        · exact ih
        · rfl

theorem mapAdjust_eq_self (reg : List (String × List Nat))
    (key : String) (f : List Nat → List Nat)
    (h : ∀ kv ∈ reg, kv.1 = key → f kv.2 = kv.2) :
    mapAdjust reg key f = reg := by
  induction reg with
  | nil => rfl
  | cons kv reg ih =>
      simp only [mapAdjust, List.map_cons]
      have ih' := ih (fun kv' hm hkk => h kv' (List.mem_cons_of_mem _ hm) hkk)
      unfold mapAdjust at ih'
      by_cases hk : kv.1 = key
      · rw [if_pos hk, h kv (List.mem_cons_self kv reg) hk, ih']
      · rw [if_neg hk, ih']

theorem mem_mapAdjust (reg : List (String × List Nat)) (key : String)
    (f : List Nat → List Nat) (kv : String × List Nat)
    (h : kv ∈ mapAdjust reg key f) :
    (kv ∈ reg ∧ kv.1 ≠ key) ∨ ∃ s, (key, s) ∈ reg ∧ kv = (key, f s) := by
  unfold mapAdjust at h
  obtain ⟨kv0, hmem, heq⟩ := List.mem_map.mp h
  by_cases hk : kv0.1 = key
  · right
    refine ⟨kv0.2, ?_, ?_⟩
    · have h2 : (key, kv0.2) = kv0 := by
        rw [← hk]
      rw [h2]
      exact hmem
    · rw [← heq, if_pos hk, hk]
  · left
    rw [if_neg hk] at heq
    rw [← heq]
    exact ⟨hmem, hk⟩

theorem mem_setAdd_self (s : List Nat) (l : Nat) : l ∈ setAdd s l := by
  unfold setAdd
  by_cases h : s.contains l
  · rw [if_pos h]
    exact List.mem_of_elem_eq_true h
  · rw [if_neg h]
    simp

theorem setAdd_of_mem (s : List Nat) (l : Nat) (h : l ∈ s) : setAdd s l = s := by
  unfold setAdd
  rw [if_pos (List.elem_eq_true_of_mem h)]

theorem setAdd_idem (s : List Nat) (l : Nat) : setAdd (setAdd s l) l = setAdd s l :=
  setAdd_of_mem _ _ (mem_setAdd_self s l)

theorem setAdd_nodup (s : List Nat) (l : Nat) (h : s.Nodup) : (setAdd s l).Nodup := by
  unfold setAdd
  by_cases hc : s.contains l
  · rw [if_pos hc]
    exact h
  · rw [if_neg hc]
    have hnm : l ∉ s := fun hm => hc (List.elem_eq_true_of_mem hm)
    simp [List.nodup_append, h, hnm]

theorem setAdd_count (s : List Nat) (l : Nat) (h : s.Nodup) :
    (setAdd s l).count l = 1 := by
  unfold setAdd
  by_cases hc : s.contains l
  · rw [if_pos hc]
    exact List.count_eq_one_of_mem h (List.mem_of_elem_eq_true hc)
  · rw [if_neg hc]
    have hnm : l ∉ s := fun hm => hc (List.elem_eq_true_of_mem hm)
    simp [List.count_append, List.count_eq_zero_of_not_mem hnm]

theorem lookup_append_some {β : Type} (l1 l2 : List (String × β)) (k : String)
    (ls : β) (h : l1.lookup k = some ls) : (l1 ++ l2).lookup k = some ls := by
  induction l1 with
  | nil => cases h
  | cons kv l1 ih =>
      simp only [List.lookup, List.cons_append] at *
      cases hbeq : k == kv.1
      · rw [hbeq] at h
        exact ih h
      · rw [hbeq] at h
        exact h

theorem lookup_append_none {β : Type} (l1 l2 : List (String × β)) (k : String)
    (h : l1.lookup k = none) : (l1 ++ l2).lookup k = l2.lookup k := by
  induction l1 with
  | nil => rfl
  | cons kv l1 ih =>
      simp only [List.lookup, List.cons_append] at *
      cases hbeq : k == kv.1
      · rw [hbeq] at h
        exact ih h
      · rw [hbeq] at h
        cases h

theorem lookup_subscribe_self (m : SM) (key : String) (l : Nat) :
    (m.subscribe key l).listeners.lookup key =
      some (setAdd ((m.listeners.lookup key).getD []) l) := by
  unfold SM.subscribe
  by_cases h : (m.listeners.lookup key).isSome
  · rw [if_pos h]
    rw [lookup_mapAdjust_self]
    obtain ⟨ls, hls⟩ := Option.isSome_iff_exists.mp h
    rw [hls]
    rfl
  · rw [if_neg h]
    have hnone : m.listeners.lookup key = none := by
      cases hx : m.listeners.lookup key
      · rfl
      · rw [hx] at h
        simp at h
    rw [lookup_mapAdjust_self, lookup_append_none m.listeners [(key, [])] key hnone]
    rw [hnone]
    simp only [List.lookup, beq_self_eq_true]
    rfl

theorem lookup_subscribe_other (m : SM) (key k' : String) (l : Nat)
    (h : k' ≠ key) :
    (m.subscribe key l).listeners.lookup k' = m.listeners.lookup k' := by
  unfold SM.subscribe
  by_cases hs : (m.listeners.lookup key).isSome
  · rw [if_pos hs, lookup_mapAdjust_other _ _ _ _ h]
  · rw [if_neg hs, lookup_mapAdjust_other _ _ _ _ h]
    cases hx : m.listeners.lookup k' with
    | some ls =>
        exact lookup_append_some m.listeners [(key, [])] k' ls hx
    | none =>
        rw [lookup_append_none m.listeners [(key, [])] k' hx]
        simp [List.lookup, beq_eq_false_iff_ne.mpr h]

/-- C9.  The unsubscribe closure returned by `subscribe` removes
exactly that listener from the key's set; when the set becomes empty
the key's registry entry is deleted outright (no leaked empty sets, as
the last conjunct shows the no-empty-set invariant is preserved);
other keys' entries are untouched; a second call is a no-op; and after
the first call the listener receives no further notifications for that
key. -/
theorem unsubscribe_exact (m : SM) (key : String) (l : Nat) (ls : List Nat)
    (hwf : regWF m.listeners)
    (hls : m.listeners.lookup key = some ls) :
    ((m.unsubscribe key l).listeners.lookup key =
        if (ls.erase l).isEmpty then none else some (ls.erase l)) ∧
    (∀ k', k' ≠ key →
        (m.unsubscribe key l).listeners.lookup k' = m.listeners.lookup k') ∧
    ((m.unsubscribe key l).unsubscribe key l = m.unsubscribe key l) ∧
    (∀ (t : Nat → Bool) (nv ov : JVal),
        ((notifyListeners (m.unsubscribe key l).listeners t key nv ov).1.filter
          (fun e => e.listener == l)) = []) ∧
    ((∀ kv ∈ m.listeners, kv.2 ≠ []) →
        ∀ kv ∈ (m.unsubscribe key l).listeners, kv.2 ≠ []) := by
  have hndl : ls.Nodup := hwf.2 (key, ls) (lookup_mem _ _ _ hls)
  have hner : l ∉ ls.erase l := by
    intro hmem
    exact (((List.Nodup.mem_erase_iff hndl).mp hmem).1) rfl
  by_cases hemp : (ls.erase l).isEmpty = true
  · -- the set becomes empty: the registry entry is deleted
    have hm' : (m.unsubscribe key l).listeners =
        m.listeners.filter (fun kv => kv.1 != key) := by
      simp only [SM.unsubscribe, hls, hemp, if_true]
    have hlk : (m.unsubscribe key l).listeners.lookup key = none := by
      rw [hm']
      exact lookup_filter_ne_self m.listeners key
    refine ⟨?_, ?_, ?_, ?_, ?_⟩
    · rw [hlk, if_pos hemp]
    · intro k' hk'
      rw [hm']
      exact lookup_filter_other m.listeners key k' hk'
    · set M := m.unsubscribe key l with hM
      simp only [SM.unsubscribe, hlk]
    · intro t nv ov
      rw [notify_events_eq, hlk]
      rfl
    · intro hne kv hkv
      rw [hm'] at hkv
      exact hne kv (List.mem_of_mem_filter hkv)
  · -- listeners remain: the entry's set loses exactly `l`
    have hm' : (m.unsubscribe key l).listeners =
        mapAdjust m.listeners key (fun s => s.erase l) := by
      simp only [SM.unsubscribe, hls, hemp, Bool.false_eq_true, if_false]
    have hlk : (m.unsubscribe key l).listeners.lookup key = some (ls.erase l) := by
      rw [hm', lookup_mapAdjust_self, hls]
      rfl
    refine ⟨?_, ?_, ?_, ?_, ?_⟩
    · rw [hlk, if_neg hemp]
    · intro k' hk'
      rw [hm']
      exact lookup_mapAdjust_other m.listeners key k' _ hk'
    · have heq2 : (ls.erase l).erase l = ls.erase l :=
        List.erase_of_not_mem hner
      have hmap : mapAdjust (m.unsubscribe key l).listeners key
          (fun s => s.erase l) = (m.unsubscribe key l).listeners := by
        apply mapAdjust_eq_self
        intro kv hkv hkey
        rw [hm'] at hkv
        rcases mem_mapAdjust m.listeners key _ kv hkv with ⟨_, hne2⟩ | ⟨s, hsm, hkv2⟩
        · exact absurd hkey hne2
        · have hnds : s.Nodup := hwf.2 (key, s) hsm
          have : l ∉ s.erase l := by
            intro hmem
            exact (((List.Nodup.mem_erase_iff hnds).mp hmem).1) rfl
          rw [hkv2]
          exact List.erase_of_not_mem this
      have hempty2 : ((ls.erase l).erase l).isEmpty = false := by
        rw [heq2]
        simpa using hemp
      set M := m.unsubscribe key l with hM
      simp only [SM.unsubscribe, hlk, hempty2, Bool.false_eq_true, if_false, hmap]
      try rfl
    · intro t nv ov
      rw [notify_events_eq, hlk]
      simp only [Option.getD_some]
      rw [List.filter_map]
      apply List.map_eq_nil_iff.mpr
      rw [List.filter_eq_nil_iff]
      intro a ha
      simp only [Function.comp_apply, beq_iff_eq]
      exact fun hal => hner (hal ▸ ha)
    · intro hne kv hkv
      rw [hm'] at hkv
      rcases mem_mapAdjust m.listeners key _ kv hkv with ⟨hm2, _⟩ | ⟨s, hsm, hkv2⟩
      · exact hne kv hm2
      · -- the unique entry under `key` is `ls`, whose erase is nonempty
        have hlook := lookup_of_mem_nodupKeys m.listeners key s hwf.1 hsm
        rw [hls] at hlook
        have hsl : s = ls := (Option.some_inj.mp hlook).symm
        rw [hkv2, hsl]
        intro hc
        apply hemp
        simp only [List.isEmpty_iff]
        exact hc

/-- C10.  Subscribing the same listener instance twice under the same
key registers it only once: the second `subscribe` is the identity, the
key's set counts the listener exactly once, a committed `set` on that
key invokes it exactly once, and a single `unsubscribe` call removes it
completely. -/
theorem subscribe_dedup (m : SM) (key : String) (l : Nat)
    (hwf : regWF m.listeners) :
    ((m.subscribe key l).subscribe key l = m.subscribe key l) ∧
    (((m.subscribe key l).listeners.lookup key).getD []).count l = 1 ∧
    (∀ (v : JVal) (now : Nat) (t : Nat → Bool),
        (m.subscribe key l).commits key v = true →
        (((m.subscribe key l).set key v now t).events.filter
          (fun e => e.listener == l)).length = 1) ∧
    (∀ ls', ((m.subscribe key l).unsubscribe key l).listeners.lookup key = some ls' →
        l ∉ ls') := by
  have hnd0 : ((m.listeners.lookup key).getD []).Nodup := by
    cases hx : m.listeners.lookup key with
    | none => simp
    | some ls =>
        simp only [Option.getD_some]
        exact hwf.2 (key, ls) (lookup_mem _ _ _ hx)
  have hlku := lookup_subscribe_self m key l
  have hm1 : ∃ reg0, (m.subscribe key l).listeners =
      mapAdjust reg0 key (fun s => setAdd s l) := by
    by_cases h : (m.listeners.lookup key).isSome
    · exact ⟨m.listeners, by simp only [SM.subscribe, if_pos h]⟩
    · exact ⟨m.listeners ++ [(key, [])], by simp only [SM.subscribe, if_neg h]⟩
  set M := m.subscribe key l with hM
  have hnd1 : (setAdd ((m.listeners.lookup key).getD []) l).Nodup :=
    setAdd_nodup _ _ hnd0
  refine ⟨?_, ?_, ?_, ?_⟩
  · -- double subscription is the identity
    obtain ⟨reg0, hreg⟩ := hm1
    have hiss : (M.listeners.lookup key).isSome := by
      rw [hlku]
      rfl
    have hfix : mapAdjust M.listeners key (fun s => setAdd s l) = M.listeners := by
      apply mapAdjust_eq_self
      intro kv hkv hkey
      rw [hreg] at hkv
      rcases mem_mapAdjust reg0 key _ kv hkv with ⟨_, hne⟩ | ⟨s, _, hkv2⟩
      · exact absurd hkey hne
      · rw [hkv2]
        exact setAdd_idem s l
    simp only [SM.subscribe, if_pos hiss, hfix]
  · rw [hlku]
    simp only [Option.getD_some]
    exact setAdd_count _ _ hnd0
  · intro v now t hc
    obtain ⟨hne, hacc⟩ := commits_parts M key v hc
    rw [set_commit_events M key v now t hne hacc, notify_events_eq, hlku]
    simp only [Option.getD_some]
    rw [List.filter_map, List.length_map]
    have hpred : ((fun e : Event => e.listener == l) ∘
        (fun a => { listener := a, newValue := v,
                    oldValue := jGet M.state key, key := key })) =
        fun a => a == l := rfl
    rw [hpred, ← List.countP_eq_length_filter]
    have hcnt := setAdd_count ((m.listeners.lookup key).getD []) l hnd0
    simpa [List.count] using hcnt
  · intro ls' hls'
    by_cases hemp : ((setAdd ((m.listeners.lookup key).getD []) l).erase l).isEmpty = true
    · have : (M.unsubscribe key l).listeners.lookup key = none := by
        simp only [SM.unsubscribe, hlku, hemp, if_true]
        exact lookup_filter_ne_self M.listeners key
      rw [this] at hls'
      cases hls'
    · have : (M.unsubscribe key l).listeners.lookup key =
          some ((setAdd ((m.listeners.lookup key).getD []) l).erase l) := by
        simp only [SM.unsubscribe, hlku, hemp, Bool.false_eq_true, if_false]
        rw [lookup_mapAdjust_self, hlku]
        rfl
      rw [this] at hls'
      have hls2 := Option.some_inj.mp hls'
      rw [← hls2]
      intro hmem
      exact (((List.Nodup.mem_erase_iff hnd1).mp hmem).1) rfl

/-- Witness for C9: removing listener 7 from the two-listener entry. -/
theorem unsubscribe_exact_witness :
    regWF demoM.listeners ∧
    demoM.listeners.lookup "activeTab" = some [7, 8] ∧
    ((demoM.unsubscribe "activeTab" 7).listeners.lookup "activeTab" =
      if (([7, 8] : List Nat).erase 7).isEmpty then none
      else some (([7, 8] : List Nat).erase 7)) :=
  ⟨by decide, by decide,
   (unsubscribe_exact demoM "activeTab" 7 [7, 8] (by decide) (by decide)).1⟩

/-- Witness for C10: double subscription of listener 7 on the singleton
manager collapses to a single registration. -/
theorem subscribe_dedup_witness :
    regWF stateManager.listeners ∧
    ((stateManager.subscribe "activeTab" 7).subscribe "activeTab" 7 =
      stateManager.subscribe "activeTab" 7) :=
  ⟨by decide, (subscribe_dedup stateManager "activeTab" 7 (by decide)).1⟩

/-! ## C8: reset semantics -/

mutual

theorem eraseIds_deepClone (n : Nat) (v : JVal) :
    eraseIds (deepClone n v).2 = eraseIds v := by
  cases v with
  | arr i xs =>
      show eraseIds (JVal.arr (deepCloneList n xs).1 (deepCloneList n xs).2) =
        eraseIds (JVal.arr i xs)
      simp only [eraseIds]
      rw [eraseIdsList_deepCloneList n xs]
  | obj i fs =>
      show eraseIds (JVal.obj (deepCloneFields n fs).1 (deepCloneFields n fs).2) =
        eraseIds (JVal.obj i fs)
      simp only [eraseIds]
      rw [eraseIdsFields_deepCloneFields n fs]
  | null => rfl
  | undefined => rfl
  | bool b => rfl
  | num x => rfl
  | str s => rfl

theorem eraseIdsList_deepCloneList (n : Nat) (xs : List JVal) :
    eraseIdsList (deepCloneList n xs).2 = eraseIdsList xs := by
  cases xs with
  | nil => rfl
  | cons x xs =>
      show eraseIdsList ((deepClone n x).2 :: (deepCloneList (deepClone n x).1 xs).2) =
        eraseIdsList (x :: xs)
      simp only [eraseIdsList]
      rw [eraseIds_deepClone n x, eraseIdsList_deepCloneList (deepClone n x).1 xs]

theorem eraseIdsFields_deepCloneFields (n : Nat) (fs : List (String × JVal)) :
    eraseIdsFields (deepCloneFields n fs).2 = eraseIdsFields fs := by
  cases fs with
  | nil => rfl
  | cons kv fs =>
      obtain ⟨k, v⟩ := kv
      show eraseIdsFields ((k, (deepClone n v).2) ::
          (deepCloneFields (deepClone n v).1 fs).2) = eraseIdsFields ((k, v) :: fs)
      simp only [eraseIdsFields]
      rw [eraseIds_deepClone n v, eraseIdsFields_deepCloneFields (deepClone n v).1 fs]

end

theorem lookup_eraseIdsFields (fs : List (String × JVal)) (k : String) :
    (eraseIdsFields fs).lookup k = (fs.lookup k).map eraseIds := by
  induction fs with
  | nil => rfl
  | cons kv fs ih =>
      obtain ⟨k', v'⟩ := kv
      simp only [eraseIdsFields, List.lookup]
      cases hbeq : k == k'
      · exact ih
      · rfl

theorem eraseIdsList_getD (xs : List JVal) (i : Nat) :
    (eraseIdsList xs).getD i JVal.undefined = eraseIds (xs.getD i JVal.undefined) := by
  induction xs generalizing i with
  | nil => cases i <;> rfl
  | cons x xs ih =>
      cases i with
      | zero => rfl
      | succ i' =>
          simp only [eraseIdsList, List.getD_cons_succ]
          exact ih i'

theorem eraseIds_jGet (a : JVal) (k : String) :
    eraseIds (jGet a k) = jGet (eraseIds a) k := by
  cases a with
  | obj i fs =>
      simp only [jGet, eraseIds]
      rw [lookup_eraseIdsFields]
      cases fs.lookup k <;> rfl
  | arr i xs =>
      simp only [jGet, eraseIds]
      cases hk : jsIndex? k with
      | none => rfl
      | some idx => exact (eraseIdsList_getD xs idx).symm
  | null => rfl
  | undefined => rfl
  | bool b => rfl
  | num x => rfl
  | str s => rfl

theorem eraseIds_foldl_jGet (ks : List String) (a b : JVal)
    (h : eraseIds a = eraseIds b) :
    eraseIds (ks.foldl jGet a) = eraseIds (ks.foldl jGet b) := by
  induction ks generalizing a b with
  | nil => simpa using h
  | cons k ks ih =>
      simp only [List.foldl_cons]
      apply ih
      rw [eraseIds_jGet, eraseIds_jGet, h]

theorem filter_beq_singleton (ls : List Nat) (l : Nat) (hnd : ls.Nodup)
    (hl : l ∈ ls) : ls.filter (fun a => a == l) = [l] := by
  induction ls with
  | nil => cases hl
  | cons x rest ih =>
      simp only [List.nodup_cons] at hnd
      by_cases hx : x = l
      · subst hx
        simp only [List.filter, beq_self_eq_true]
        have hrest : List.filter (fun a => a == x) rest = [] := by
          rw [List.filter_eq_nil_iff]
          intro a ha hba
          exact hnd.1 ((beq_iff_eq.mp hba) ▸ ha)
        rw [hrest]
      · have hlr : l ∈ rest := by
          rcases List.mem_cons.mp hl with h1 | h2
          · exact absurd h1.symm hx
          · exact h2
        simp only [List.filter, beq_eq_false_iff_ne.mpr hx]
        exact ih hnd.2 hlr

theorem filter_key_events_nil (full : List (String × List Nat)) (t : Nat → Bool)
    (k0 key : String) (l : Nat) (nv ov : JVal) (h : k0 ≠ key) :
    ((notifyListeners full t k0 nv ov).1.filter
      (fun e => e.key == key && e.listener == l)) = [] := by
  rw [notify_events_eq, List.filter_map]
  apply List.map_eq_nil_iff.mpr
  rw [List.filter_eq_nil_iff]
  intro a ha
  simp [beq_eq_false_iff_ne.mpr h]

theorem filter_key_events_self (full : List (String × List Nat)) (t : Nat → Bool)
    (key : String) (ls : List Nat) (l : Nat) (nv ov : JVal)
    (hfull : full.lookup key = some ls) (hnd : ls.Nodup) (hl : l ∈ ls) :
    ((notifyListeners full t key nv ov).1.filter
      (fun e => e.key == key && e.listener == l)) =
      [{ listener := l, newValue := nv, oldValue := ov, key := key }] := by
  rw [notify_events_eq, hfull]
  simp only [Option.getD_some]
  rw [List.filter_map]
  have hpred : ((fun e : Event => e.key == key && e.listener == l) ∘
      (fun a => { listener := a, newValue := nv, oldValue := ov, key := key })) =
      fun a => a == l := by
    funext a
    simp
  rw [hpred, filter_beq_singleton ls l hnd hl]
  rfl

theorem reset_events_notmem (full : List (String × List Nat)) (t : Nat → Bool)
    (f g : String → JVal) (key : String) (l : Nat) :
    ∀ reg : List (String × List Nat), key ∉ reg.map Prod.fst →
      (((reg.map (fun kv =>
          (notifyListeners full t kv.1 (f kv.1) (g kv.1)).1)).flatten).filter
        (fun e => e.key == key && e.listener == l)) = [] := by
  intro reg
  induction reg with
  | nil => intro _; rfl
  | cons kv reg ih =>
      intro hk
      simp only [List.map_cons, List.flatten_cons, List.filter_append]
      have hk1 : kv.1 ≠ key := by
        intro he
        exact hk (by rw [List.map_cons, he]; exact List.mem_cons_self key _)
      have hk2 : key ∉ reg.map Prod.fst := by
        intro hm
        exact hk (by rw [List.map_cons]; exact List.mem_cons_of_mem _ hm)
      rw [filter_key_events_nil full t kv.1 key l _ _ hk1, ih hk2]
      rfl

theorem reset_events_filter (full : List (String × List Nat)) (t : Nat → Bool)
    (f g : String → JVal) (key : String) (ls : List Nat) (l : Nat)
    (hfull : full.lookup key = some ls) (hndls : ls.Nodup) (hl : l ∈ ls) :
    ∀ reg : List (String × List Nat),
      (reg.map Prod.fst).Nodup →
      (key, ls) ∈ reg →
      (((reg.map (fun kv =>
          (notifyListeners full t kv.1 (f kv.1) (g kv.1)).1)).flatten).filter
        (fun e => e.key == key && e.listener == l)) =
        [{ listener := l, newValue := f key, oldValue := g key, key := key }] := by
  intro reg
  induction reg with
  | nil => intro _ hmem; cases hmem
  | cons kv reg ih =>
      intro hnd hmem
      simp only [List.map_cons, List.nodup_cons] at hnd
      simp only [List.map_cons, List.flatten_cons, List.filter_append]
      rcases List.mem_cons.mp hmem with h1 | h2
      · rw [← h1]
        rw [filter_key_events_self full t key ls l _ _ hfull hndls hl]
        have hnotin : key ∉ reg.map Prod.fst := by
          rw [← h1] at hnd
          exact hnd.1
        rw [reset_events_notmem full t f g key l reg hnotin]
        rfl
      · have hk1 : kv.1 ≠ key := by
          intro he
          exact hnd.1 (he ▸ List.mem_map_of_mem Prod.fst h2)
        rw [filter_key_events_nil full t kv.1 key l _ _ hk1, ih hnd.2 h2]
        rfl

/-- C8.  `reset` replaces the state with a fresh deep clone of the
original initial snapshot, so afterwards every top-level key reads
(structurally) its initial-snapshot value; and for every registered
(key, listener) pair, exactly one notification for that pair is
emitted, carrying the new value read from the fresh state and the old
value read from the deep clone of the pre-reset state at the same key
path — values that structurally equal the initial-snapshot value and
the pre-reset value respectively; no validator is consulted (the
result is invariant under any replacement of the validator
registry). -/
theorem reset_restores_initial (m : SM) (t : Nat → Bool) (key : String)
    (ls : List Nat) (l : Nat)
    (hwf : regWF m.listeners) (hmem : (key, ls) ∈ m.listeners) (hl : l ∈ ls) :
    (∀ k, eraseIds (jGet (m.reset t).sm.state k) = eraseIds (jGet initialState k)) ∧
    ((m.reset t).events.filter (fun e => e.key == key && e.listener == l) =
      [{ listener := l,
         newValue := getNestedFrom (m.reset t).sm.state key,
         oldValue := getNestedFrom (deepClone m.nextId m.state).2 key,
         key := key }]) ∧
    eraseIds (getNestedFrom (m.reset t).sm.state key) =
      eraseIds (getNestedFrom initialState key) ∧
    eraseIds (getNestedFrom (deepClone m.nextId m.state).2 key) =
      eraseIds (getNestedFrom m.state key) ∧
    (∀ vals : String → Option (JVal → Bool),
      (SM.reset { m with validators := vals } t).sm.state = (m.reset t).sm.state ∧
      (SM.reset { m with validators := vals } t).events = (m.reset t).events) := by
  have hstate : (m.reset t).sm.state =
      (deepClone (deepClone m.nextId m.state).1 initialState).2 := rfl
  have hes : eraseIds (m.reset t).sm.state = eraseIds initialState := by
    rw [hstate]
    exact eraseIds_deepClone _ _
  have heo : eraseIds (deepClone m.nextId m.state).2 = eraseIds m.state :=
    eraseIds_deepClone _ _
  refine ⟨?_, ?_, ?_, ?_, fun vals => ⟨rfl, rfl⟩⟩
  · intro k
    rw [eraseIds_jGet, eraseIds_jGet, hes]
  · have hev : (m.reset t).events =
        ((m.listeners.map (fun kv =>
          (notifyListeners m.listeners t kv.1
            (getNestedFrom (deepClone (deepClone m.nextId m.state).1 initialState).2 kv.1)
            (getNestedFrom (deepClone m.nextId m.state).2 kv.1)).1)).flatten) := by
      simp only [SM.reset, List.map_map]
      rfl
    have hfull : m.listeners.lookup key = some ls :=
      lookup_of_mem_nodupKeys m.listeners key ls hwf.1 hmem
    have hndls : ls.Nodup := hwf.2 (key, ls) hmem
    rw [hev]
    rw [reset_events_filter m.listeners t
      (fun k => getNestedFrom (deepClone (deepClone m.nextId m.state).1 initialState).2 k)
      (fun k => getNestedFrom (deepClone m.nextId m.state).2 k)
      key ls l hfull hndls hl m.listeners hwf.1 hmem]
    rw [hstate]
  · exact eraseIds_foldl_jGet _ _ _ hes
  · exact eraseIds_foldl_jGet _ _ _ heo

/-- Witness for C8: resetting the fixture manager restores every
top-level key to its initial-snapshot value. -/
theorem reset_restores_initial_witness :
    regWF demoM8.listeners ∧
    ("activeTab", [7]) ∈ demoM8.listeners ∧
    7 ∈ ([7] : List Nat) ∧
    (∀ k, eraseIds (jGet (demoM8.reset (fun _ => false)).sm.state k) =
      eraseIds (jGet initialState k)) :=
  ⟨by decide, by decide, by decide,
   (reset_restores_initial demoM8 (fun _ => false) "activeTab" [7] 7
     (by decide) (by decide) (by decide)).1⟩
